import Mathlib

/-!
Verification of the daily mood tracker's entry store and analytics reducer.

The embedding models:
* calendar dates as day indices (`Nat`, days since epoch), date-only;
* timestamps as milliseconds since epoch (`Nat`);
* the persisted table as a list of rows plus a serial id counter;
* the five mood tokens as a closed enumeration;
* nullable text as `Option String` (`none` covers both SQL NULL and an
  omitted/undefined input field; an explicit-null-vs-omitted distinction is
  modelled with `Option (Option String)` where the handler distinguishes them).
-/

inductive Mood where
  | happy
  | sad
  | angry
  | excited
  | neutral
deriving DecidableEq, Repr, Fintype

/-- A persisted row of the `mood_entries` table. -/
structure MoodEntry where
  id : Nat
  user_id : String
  date : Nat
  mood : Mood
  note : Option String
  created_at : Nat
  updated_at : Nat
deriving DecidableEq, Repr

def msPerDay : Nat := 86400000

/-- Day index of a millisecond timestamp. -/
def dayOf (t : Nat) : Nat := t / msPerDay

/-- The persisted state: table rows plus the serial `id` sequence. -/
structure Store where
  rows : List MoodEntry
  nextId : Nat
deriving DecidableEq, Repr

inductive StoreError where
  | validation
  | notFound
deriving DecidableEq, Repr

structure CreateMoodEntryInput where
  user_id : String
  date : Nat
  mood : Mood
  note : Option String
deriving DecidableEq, Repr

/-- JavaScript `input.note || null`: the falsy note values (null, undefined,
the empty string) all coerce to SQL NULL. -/
def noteOrNull : Option String → Option String
  | some s => if s = "" then none else some s
  | none => none

/-- Row predicate for the `user_id = u AND date = d` lookup. -/
def matchesPair (u : String) (d : Nat) (r : MoodEntry) : Bool :=
  r.user_id == u && r.date == d

/-- `createMoodEntry` from `src/server/src/handlers/create_mood_entry.ts`:
reject when the input date (parsed at midnight) lies strictly after the end of
today (`today.setHours(23,59,59,999)`); otherwise upsert keyed on
`(user_id, date)`: overwrite mood/note/updated_at of the first matching row,
or insert a fresh row with a serial id and `created_at = updated_at = now`. -/
def createMoodEntry (now : Nat) (input : CreateMoodEntryInput) (s : Store) :
    Except StoreError (MoodEntry × Store) :=
  if dayOf now * msPerDay + (msPerDay - 1) < input.date * msPerDay then
    .error .validation
  else
    match s.rows.find? (matchesPair input.user_id input.date) with
    | some e =>
        let e' : MoodEntry :=
          { e with mood := input.mood, note := noteOrNull input.note, updated_at := now }
        .ok (e', ⟨s.rows.map (fun r => if r.id == e.id then e' else r), s.nextId⟩)
    | none =>
        let r : MoodEntry :=
          ⟨s.nextId, input.user_id, input.date, input.mood, noteOrNull input.note, now, now⟩
        .ok (r, ⟨s.rows ++ [r], s.nextId + 1⟩)

/-- `getMoodEntryByDate` from the handler: first row matching
`(user_id, date)`, or `none` when absent. -/
def getMoodEntryByDate (u : String) (d : Nat) (s : Store) : Option MoodEntry :=
  s.rows.find? (matchesPair u d)

structure UpdateMoodEntryInput where
  id : Nat
  mood : Option Mood
  note : Option (Option String)
deriving DecidableEq, Repr

/-- `updateMoodEntry` from `src/server/src/handlers/update_mood_entry.ts`:
fail when no row has the id; otherwise set exactly the provided fields
(`mood !== undefined`, `note !== undefined`) plus `updated_at`, and return the
updated row.  `input.note = some none` models an explicit null, `none` an
omitted field. -/
def updateMoodEntry (now : Nat) (input : UpdateMoodEntryInput) (s : Store) :
    Except StoreError (MoodEntry × Store) :=
  match s.rows.find? (fun r => r.id == input.id) with
  | none => .error .notFound
  | some e =>
      let e' : MoodEntry :=
        { e with
          mood := match input.mood with | some m => m | none => e.mood
          note := match input.note with | some n => n | none => e.note
          updated_at := now }
      .ok (e', ⟨s.rows.map (fun r => if r.id == input.id then e' else r), s.nextId⟩)

structure DeleteResult where
  success : Bool
deriving DecidableEq, Repr

/-- `deleteMoodEntry` from the handler: delete all rows with the id
(`id` is the serial primary key, so at most one), then fail with NotFound when
the `returning` list is empty; otherwise report `success: true`.  The store
component is the table state after the delete statement ran. -/
def deleteMoodEntry (i : Nat) (s : Store) : Except StoreError DeleteResult × Store :=
  if (s.rows.filter (fun r => r.id == i)).length == 0 then
    (.error .notFound, ⟨s.rows.filter (fun r => r.id != i), s.nextId⟩)
  else
    (.ok ⟨true⟩, ⟨s.rows.filter (fun r => r.id != i), s.nextId⟩)

structure GetMoodEntriesInput where
  user_id : String
  start_date : Option Nat
  end_date : Option Nat
deriving DecidableEq, Repr

/-- The WHERE clause of `getMoodEntries`: always `user_id = input.user_id`,
plus `date >= start_date` / `date <= end_date` when given. -/
def inRange (inp : GetMoodEntriesInput) (r : MoodEntry) : Bool :=
  r.user_id == inp.user_id
    && (match inp.start_date with | some a => decide (a ≤ r.date) | none => true)
    && (match inp.end_date with | some b => decide (r.date ≤ b) | none => true)

/-- `ORDER BY date DESC` as a boolean comparator. -/
def dateDescBle (a b : MoodEntry) : Bool := decide (b.date ≤ a.date)

/-- `getMoodEntries` from `src/server/src/handlers/get_mood_entries.ts`. -/
def getMoodEntries (inp : GetMoodEntriesInput) (s : Store) : List MoodEntry :=
  (s.rows.filter (inRange inp)).mergeSort dateDescBle

/-- C2. A create whose date is strictly after today (date-only) fails with a
ValidationError no matter the millisecond-of-day at which the call happens,
and a create for today or a past date never does. -/
theorem create_future_date_validation
    (d m : Nat) (input : CreateMoodEntryInput) (s : Store) (hm : m < msPerDay) :
    (createMoodEntry (d * msPerDay + m) input s = .error .validation) ↔ d < input.date := by
  have hday : dayOf (d * msPerDay + m) = d := by
    unfold dayOf msPerDay at *
    omega
  unfold createMoodEntry
  rw [hday]
  split
  · next hlt =>
    simp only [msPerDay] at hlt
    simp only [eq_self_iff_true, true_iff]
    omega
  · next hge =>
    simp only [msPerDay] at hge
    constructor
    · intro h
      exfalso
      split at h <;> simp at h
    · intro hlt
      exact absurd (by omega : d * 86400000 + (86400000 - 1) < input.date * 86400000) hge

/-- Witness for C2 at concrete inputs: day 100 at noon, create for day 101 is
rejected; create for day 100 is not. -/
theorem create_future_date_validation_witness :
    (createMoodEntry (100 * msPerDay + 43200000) ⟨"u1", 101, Mood.happy, none⟩ ⟨[], 1⟩
        = .error .validation)
    ∧ ¬ (createMoodEntry (100 * msPerDay + 43200000) ⟨"u1", 100, Mood.happy, none⟩ ⟨[], 1⟩
        = .error .validation) := by
  constructor
  · exact (create_future_date_validation 100 43200000 ⟨"u1", 101, Mood.happy, none⟩ ⟨[], 1⟩
      (by norm_num [msPerDay])).mpr (by norm_num)
  · intro h
    exact absurd ((create_future_date_validation 100 43200000 ⟨"u1", 100, Mood.happy, none⟩
      ⟨[], 1⟩ (by norm_num [msPerDay])).mp h) (by norm_num)
/-- C6. An update on an existing id changes only the explicitly provided
fields: omitted mood keeps the mood, `note: null` clears the note, omitted
note keeps it; `updated_at` becomes `now` unconditionally; `id`, `user_id`,
`date`, `created_at` are echoed back unchanged; and every row of the new
store is either the updated row or an untouched old row with a different id. -/
theorem updateMoodEntry_frame (now : Nat) (input : UpdateMoodEntryInput) (s : Store)
    (e : MoodEntry) (hfind : s.rows.find? (fun r => r.id == input.id) = some e) :
    ∃ r s', updateMoodEntry now input s = .ok (r, s')
      ∧ r.id = e.id ∧ r.user_id = e.user_id ∧ r.date = e.date ∧ r.created_at = e.created_at
      ∧ r.updated_at = now
      ∧ (input.mood = none → r.mood = e.mood)
      ∧ (∀ m, input.mood = some m → r.mood = m)
      ∧ (input.note = none → r.note = e.note)
      ∧ (∀ n, input.note = some n → r.note = n)
      ∧ (∀ x ∈ s.rows, x.id ≠ input.id → x ∈ s'.rows)
      ∧ (∀ x ∈ s'.rows, x = r ∨ (x ∈ s.rows ∧ x.id ≠ input.id)) := by
  unfold updateMoodEntry
  rw [hfind]
  refine ⟨_, _, rfl, rfl, rfl, rfl, rfl, rfl, ?_, ?_, ?_, ?_, ?_, ?_⟩
  · intro h; simp [h]
  · intro m h; simp [h]
  · intro h; simp [h]
  · intro n h; simp [h]
  · intro x hx hne
    simp only [List.mem_map]
    exact ⟨x, hx, by simp [hne]⟩
  · intro x hx
    simp only [List.mem_map] at hx
    obtain ⟨y, hy, hxy⟩ := hx
    by_cases hcase : y.id = input.id
    · left
      rw [← hxy]
      simp [hcase]
    · right
      have hxyy : x = y := by rw [← hxy]; simp [hcase]
      exact ⟨hxyy ▸ hy, by rw [hxyy]; exact hcase⟩

/-- Witness for C6: a one-row store, update providing only an explicit null
note; mood survives, note clears, timestamps behave as stated. -/
theorem updateMoodEntry_frame_witness :
    ∃ r s', updateMoodEntry 500 ⟨7, none, some none⟩
        ⟨[⟨7, "u1", 40, Mood.sad, some "x", 100, 100⟩], 8⟩ = .ok (r, s')
      ∧ r.id = 7 ∧ r.mood = Mood.sad ∧ r.note = none ∧ r.updated_at = 500
      ∧ r.created_at = 100 := by
  obtain ⟨r, s', hok, hidr, -, -, hc, hu, hm, -, -, hn, -, -⟩ :=
    updateMoodEntry_frame 500 ⟨7, none, some none⟩
      ⟨[⟨7, "u1", 40, Mood.sad, some "x", 100, 100⟩], 8⟩
      ⟨7, "u1", 40, Mood.sad, some "x", 100, 100⟩ (by rfl)
  exact ⟨r, s', hok, hidr, hm rfl, hn none rfl, hu, hc⟩

/-- C7. Deleting a nonexistent id fails with NotFound and leaves the table
unchanged; a returned result always has `success = true`; and on success the
rows with the requested id (and only those) are gone while some row with that
id existed. -/
theorem deleteMoodEntry_spec (i : Nat) (s : Store) :
    ((∀ r ∈ s.rows, r.id ≠ i) →
        (deleteMoodEntry i s).1 = .error .notFound ∧ (deleteMoodEntry i s).2 = s)
    ∧ (∀ res, (deleteMoodEntry i s).1 = .ok res → res.success = true)
    ∧ (∀ res, (deleteMoodEntry i s).1 = .ok res →
        (∀ e, e ∈ (deleteMoodEntry i s).2.rows ↔ e ∈ s.rows ∧ e.id ≠ i)
        ∧ ∃ e ∈ s.rows, e.id = i) := by
  refine ⟨?_, ?_, ?_⟩
  · intro hnone
    have hfil : s.rows.filter (fun r => r.id == i) = [] := by
      rw [List.filter_eq_nil_iff]
      intro a ha
      simpa using hnone a ha
    have hfil' : s.rows.filter (fun r => r.id != i) = s.rows := by
      rw [List.filter_eq_self]
      intro a ha
      simpa using hnone a ha
    constructor
    · simp [deleteMoodEntry, hfil]
    · simp only [deleteMoodEntry, hfil, hfil']
      simp
  · intro res hres
    unfold deleteMoodEntry at hres
    split at hres
    · simp at hres
    · simp only [Except.ok.injEq] at hres
      rw [← hres]
  · intro res hres
    unfold deleteMoodEntry at hres ⊢
    split at hres
    · simp at hres
    · next hne =>
      rw [if_neg hne]
      constructor
      · intro x
        simp only [List.mem_filter]
        constructor
        · rintro ⟨hx, hne'⟩
          exact ⟨hx, by simpa using hne'⟩
        · rintro ⟨hx, hne'⟩
          exact ⟨hx, by simpa using hne'⟩
      · by_contra hno
        push_neg at hno
        apply hne
        have hfil : s.rows.filter (fun r => r.id == i) = [] := by
          rw [List.filter_eq_nil_iff]
          intro a ha
          simpa using hno a ha
        simp [hfil]

/-- Witness for C7 at concrete stores: deleting id 9 from a store holding only
id 3 errors and keeps the row; deleting id 3 succeeds with `success = true`. -/
theorem deleteMoodEntry_spec_witness :
    (deleteMoodEntry 9 ⟨[⟨3, "u1", 40, Mood.happy, none, 100, 100⟩], 4⟩).1
        = .error .notFound
    ∧ (deleteMoodEntry 9 ⟨[⟨3, "u1", 40, Mood.happy, none, 100, 100⟩], 4⟩).2
        = ⟨[⟨3, "u1", 40, Mood.happy, none, 100, 100⟩], 4⟩
    ∧ ∀ res, (deleteMoodEntry 3 ⟨[⟨3, "u1", 40, Mood.happy, none, 100, 100⟩], 4⟩).1 = .ok res →
        res.success = true := by
  have h1 := (deleteMoodEntry_spec 9 ⟨[⟨3, "u1", 40, Mood.happy, none, 100, 100⟩], 4⟩).1
    (by intro r hr; simp at hr; simp [hr])
  exact ⟨h1.1, h1.2,
    (deleteMoodEntry_spec 3 ⟨[⟨3, "u1", 40, Mood.happy, none, 100, 100⟩], 4⟩).2.1⟩

/-- Transitivity of the `date DESC` comparator. -/
theorem dateDescBle_trans : ∀ a b c : MoodEntry,
    dateDescBle a b = true → dateDescBle b c = true → dateDescBle a c = true := by
  intro a b c hab hbc
  simp only [dateDescBle, decide_eq_true_eq] at *
  omega

/-- Totality of the `date DESC` comparator. -/
theorem dateDescBle_total : ∀ a b : MoodEntry,
    (dateDescBle a b || dateDescBle b a) = true := by
  intro a b
  simp only [dateDescBle, Bool.or_eq_true, decide_eq_true_eq]
  omega

/-- C5. Every entry returned by `getMoodEntries` belongs to the requested
user and lies inside the inclusive `[start_date, end_date]` range when those
bounds are given; the result is sorted by date descending; and an empty range
(`end < start`) yields the empty list rather than an error. -/
theorem getMoodEntries_spec (inp : GetMoodEntriesInput) (s : Store) :
    (∀ e ∈ getMoodEntries inp s,
        e.user_id = inp.user_id
        ∧ (∀ a, inp.start_date = some a → a ≤ e.date)
        ∧ (∀ b, inp.end_date = some b → e.date ≤ b))
    ∧ List.Pairwise (fun x y => y.date ≤ x.date) (getMoodEntries inp s)
    ∧ (∀ a b, inp.start_date = some a → inp.end_date = some b → b < a →
        getMoodEntries inp s = []) := by
  refine ⟨?_, ?_, ?_⟩
  · intro e he
    have he' : e ∈ s.rows.filter (inRange inp) :=
      (List.mergeSort_perm (s.rows.filter (inRange inp)) dateDescBle).mem_iff.mp he
    have hr : inRange inp e = true := (List.mem_filter.mp he').2
    unfold inRange at hr
    simp only [Bool.and_eq_true, beq_iff_eq] at hr
    obtain ⟨⟨h1, h2⟩, h3⟩ := hr
    refine ⟨h1, ?_, ?_⟩
    · intro a ha
      rw [ha] at h2
      simpa using h2
    · intro b hb
      rw [hb] at h3
      simpa using h3
  · unfold getMoodEntries
    have hs := List.sorted_mergeSort dateDescBle_trans dateDescBle_total
      (s.rows.filter (inRange inp))
    exact hs.imp (fun h => by simpa [dateDescBle] using h)
  · intro a b ha hb hba
    unfold getMoodEntries
    have hfil : s.rows.filter (inRange inp) = [] := by
      rw [List.filter_eq_nil_iff]
      intro r hr
      unfold inRange
      rw [ha, hb]
      simp only [Bool.and_eq_true, decide_eq_true_eq, not_and]
      intro h1 h2
      omega
    rw [hfil]
    simp

/-- Witness for C5: with `start_date = 20 > end_date = 10` on a populated
store, the result is the empty list. -/
theorem getMoodEntries_spec_witness :
    getMoodEntries ⟨"u1", some 20, some 10⟩
      ⟨[⟨1, "u1", 15, Mood.happy, none, 0, 0⟩, ⟨2, "u1", 12, Mood.sad, none, 0, 0⟩], 3⟩ = [] :=
  (getMoodEntries_spec ⟨"u1", some 20, some 10⟩
    ⟨[⟨1, "u1", 15, Mood.happy, none, 0, 0⟩, ⟨2, "u1", 12, Mood.sad, none, 0, 0⟩], 3⟩).2.2
    20 10 rfl rfl (by norm_num)

/-- The client's fixed mood option list (`MOOD_OPTIONS` in MoodStats.tsx),
in declaration order: Happy, Sad, Angry, Excited, Neutral. -/
def MOOD_OPTIONS : List Mood :=
  [Mood.happy, Mood.sad, Mood.angry, Mood.excited, Mood.neutral]

/-- `moodCounts[mood.emoji] || 0`: how many entries carry the mood. -/
def moodCount (entries : List MoodEntry) (m : Mood) : Nat :=
  entries.countP (fun e => e.mood == m)

/-- `moodStats`: every option paired with its count, in declaration order. -/
def moodStats (entries : List MoodEntry) : List (Mood × Nat) :=
  MOOD_OPTIONS.map (fun m => (m, moodCount entries m))

/-- JavaScript `Array.reduce` without a seed:
`(prev, current) => prev.count > current.count ? prev : current`. -/
def reducePick : (Mood × Nat) → List (Mood × Nat) → (Mood × Nat)
  | p, [] => p
  | p, c :: rest => reducePick (if p.2 > c.2 then p else c) rest

/-- `mostCommonMood = moodStats.reduce(...)`.  `moodStats` maps over the
five-element `MOOD_OPTIONS`, so the nil branch is unreachable. -/
def mostCommonMood (entries : List MoodEntry) : Mood × Nat :=
  match moodStats entries with
  | [] => (Mood.neutral, 0)
  | p :: rest => reducePick p rest

/-- Position of a mood in the fixed declaration order. -/
def moodIdx : Mood → Nat
  | Mood.happy => 0
  | Mood.sad => 1
  | Mood.angry => 2
  | Mood.excited => 3
  | Mood.neutral => 4

/-- C3 counterexample: one Happy entry and one Sad entry tie at the maximum
count 1; Happy comes first in the declaration order, yet the code reports
Sad as the most common mood. -/
theorem mostCommonMood_tie_counterexample :
    moodCount [⟨1, "u1", 40, Mood.happy, none, 0, 0⟩, ⟨2, "u1", 41, Mood.sad, none, 0, 0⟩]
        Mood.happy = 1
    ∧ moodCount [⟨1, "u1", 40, Mood.happy, none, 0, 0⟩, ⟨2, "u1", 41, Mood.sad, none, 0, 0⟩]
        Mood.sad = 1
    ∧ (∀ m : Mood, moodCount [⟨1, "u1", 40, Mood.happy, none, 0, 0⟩,
        ⟨2, "u1", 41, Mood.sad, none, 0, 0⟩] m ≤ 1)
    ∧ moodIdx Mood.happy < moodIdx Mood.sad
    ∧ (mostCommonMood [⟨1, "u1", 40, Mood.happy, none, 0, 0⟩,
        ⟨2, "u1", 41, Mood.sad, none, 0, 0⟩]).1 = Mood.sad
    ∧ Mood.sad ≠ Mood.happy := by
  decide

/-- C3 amended: the reported most common mood attains the maximum entry
count, and every mood strictly later in the fixed declaration order has a
strictly smaller count — so among tied maxima the code reports the LAST mood
in declaration order, not the first. -/
theorem mostCommonMood_last_max (entries : List MoodEntry) :
    (mostCommonMood entries).2 = moodCount entries (mostCommonMood entries).1
    ∧ (∀ m : Mood, moodCount entries m ≤ (mostCommonMood entries).2)
    ∧ (∀ m : Mood, moodIdx (mostCommonMood entries).1 < moodIdx m →
        moodCount entries m < (mostCommonMood entries).2) := by
  simp only [mostCommonMood, moodStats, MOOD_OPTIONS, List.map_cons, List.map_nil, reducePick]
  split_ifs <;>
    refine ⟨rfl, ?_, ?_⟩ <;>
    · intro m
      try intro hm
      cases m <;> simp_all [moodIdx] <;> omega

/-- Witness for C3's amended statement on a concrete list (two Sad, one
Excited): the reported count bounds Excited's count, and Angry, which comes
after the reported mood Sad in declaration order, has a strictly smaller
count. -/
theorem mostCommonMood_last_max_witness :
    moodCount [⟨1, "u1", 40, Mood.excited, none, 0, 0⟩, ⟨2, "u1", 41, Mood.sad, none, 0, 0⟩,
        ⟨3, "u1", 42, Mood.sad, none, 0, 0⟩] Mood.excited
      ≤ (mostCommonMood [⟨1, "u1", 40, Mood.excited, none, 0, 0⟩,
        ⟨2, "u1", 41, Mood.sad, none, 0, 0⟩, ⟨3, "u1", 42, Mood.sad, none, 0, 0⟩]).2
    ∧ moodCount [⟨1, "u1", 40, Mood.excited, none, 0, 0⟩, ⟨2, "u1", 41, Mood.sad, none, 0, 0⟩,
        ⟨3, "u1", 42, Mood.sad, none, 0, 0⟩] Mood.angry
      < (mostCommonMood [⟨1, "u1", 40, Mood.excited, none, 0, 0⟩,
        ⟨2, "u1", 41, Mood.sad, none, 0, 0⟩, ⟨3, "u1", 42, Mood.sad, none, 0, 0⟩]).2 :=
  ⟨(mostCommonMood_last_max [⟨1, "u1", 40, Mood.excited, none, 0, 0⟩,
      ⟨2, "u1", 41, Mood.sad, none, 0, 0⟩, ⟨3, "u1", 42, Mood.sad, none, 0, 0⟩]).2.1
      Mood.excited,
    (mostCommonMood_last_max [⟨1, "u1", 40, Mood.excited, none, 0, 0⟩,
      ⟨2, "u1", 41, Mood.sad, none, 0, 0⟩, ⟨3, "u1", 42, Mood.sad, none, 0, 0⟩]).2.2
      Mood.angry (by decide)⟩

/-- `sortedEntries` of MoodStats.tsx: the entries sorted by date descending. -/
def sortByDateDesc (entries : List MoodEntry) : List MoodEntry :=
  entries.mergeSort dateDescBle

/-- The streak loop of MoodStats.tsx: position `i` of the sorted list must
hold an entry dated `today - i`; the expected date starts at today and
decreases by one day per matching position; the count stops at the first
mismatch.  The expected date is an integer, as calendar arithmetic never
truncates at day zero. -/
def streakFrom (expected : Int) : List MoodEntry → Nat
  | [] => 0
  | e :: rest =>
      if (e.date : Int) = expected then streakFrom (expected - 1) rest + 1 else 0

/-- `currentStreak` of MoodStats.tsx. -/
def currentStreak (today : Nat) (entries : List MoodEntry) : Nat :=
  streakFrom (today : Int) (sortByDateDesc entries)

/-- If no list element is dated `D`, the streak loop at expected date `D`
counts nothing. -/
theorem streakFrom_eq_zero (D : Nat) (l : List MoodEntry)
    (hnot : ∀ e ∈ l, e.date ≠ D) : streakFrom (D : Int) l = 0 := by
  cases l with
  | nil => rfl
  | cons e rest =>
    have : e.date ≠ D := hnot e (List.mem_cons_self e rest)
    unfold streakFrom
    rw [if_neg]
    intro h
    exact this (by exact_mod_cast h)

/-- One step of the streak loop on a date-descending, duplicate-free list all
of whose dates are at most `D`: when some element is dated `D` it is the
head, the loop counts it, and the tail supplies the same facts for `D - 1`. -/
theorem streakFrom_step (D : Nat) (l : List MoodEntry)
    (hsort : l.Pairwise (fun a b => b.date ≤ a.date))
    (hnd : (l.map MoodEntry.date).Nodup)
    (hle : ∀ e ∈ l, e.date ≤ D)
    (hmem : ∃ e ∈ l, e.date = D) (hD : 1 ≤ D) :
    ∃ t, streakFrom (D : Int) l = streakFrom ((D - 1 : Nat) : Int) t + 1
      ∧ t.Pairwise (fun a b => b.date ≤ a.date)
      ∧ (t.map MoodEntry.date).Nodup
      ∧ (∀ e ∈ t, e.date ≤ D - 1)
      ∧ (∀ x, x ∈ t ↔ x ∈ l ∧ x.date ≠ D) := by
  obtain ⟨w, hwl, hwD⟩ := hmem
  cases l with
  | nil => cases hwl
  | cons e rest =>
    have hnd' : (∀ x ∈ rest, ¬ x.date = e.date) ∧ (rest.map MoodEntry.date).Nodup := by
      simpa using hnd
    have hheadD : e.date = D := by
      rcases List.mem_cons.mp hwl with h | h
      · rw [← h]; exact hwD
      · have h1 : w.date ≤ e.date := (List.pairwise_cons.mp hsort).1 w h
        have h2 : e.date ≤ D := hle e (List.mem_cons_self e rest)
        omega
    have hrest_ne : ∀ x ∈ rest, x.date ≠ D := by
      intro x hx hxD
      exact hnd'.1 x hx (by rw [hxD, hheadD])
    refine ⟨rest, ?_, (List.pairwise_cons.mp hsort).2, hnd'.2, ?_, ?_⟩
    · unfold streakFrom
      rw [if_pos (by exact_mod_cast hheadD)]
      have hcast : (D : Int) - 1 = ((D - 1 : Nat) : Int) := by omega
      rw [hcast]
      cases rest <;> simp [streakFrom]
    · intro x hx
      have h1 : x.date ≤ e.date := (List.pairwise_cons.mp hsort).1 x hx
      have h2 : x.date ≠ D := hrest_ne x hx
      omega
    · intro x
      constructor
      · intro hx
        exact ⟨List.mem_cons_of_mem e hx, hrest_ne x hx⟩
      · rintro ⟨hx, hxD⟩
        rcases List.mem_cons.mp hx with h | h
        · exact absurd (h ▸ hheadD) hxD
        · exact h

/-- C4. Over a user's entry set (duplicate-free dates, none in the future),
if entries exist for today, today-1 and today-2 but none for today-3, the
streak is 3; and whenever no entry is dated today, the streak is 0 even if
today-1 has one. -/
theorem currentStreak_spec (today : Nat) (entries : List MoodEntry) :
    (((entries.map MoodEntry.date).Nodup ∧ (∀ e ∈ entries, e.date ≤ today) ∧ 3 ≤ today
        ∧ (∃ e ∈ entries, e.date = today) ∧ (∃ e ∈ entries, e.date = today - 1)
        ∧ (∃ e ∈ entries, e.date = today - 2) ∧ (∀ e ∈ entries, e.date ≠ today - 3)) →
      currentStreak today entries = 3)
    ∧ ((∀ e ∈ entries, e.date ≠ today) → currentStreak today entries = 0) := by
  have hperm : (sortByDateDesc entries).Perm entries := List.mergeSort_perm entries dateDescBle
  have hsorted : (sortByDateDesc entries).Pairwise (fun a b => b.date ≤ a.date) :=
    (List.sorted_mergeSort dateDescBle_trans dateDescBle_total entries).imp
      (fun h => by simpa [dateDescBle] using h)
  constructor
  · rintro ⟨hnd, hle, h3, hm0, hm1, hm2, hno3⟩
    have hnd0 : ((sortByDateDesc entries).map MoodEntry.date).Nodup :=
      ((hperm.map MoodEntry.date).nodup_iff).mpr hnd
    have hle0 : ∀ e ∈ sortByDateDesc entries, e.date ≤ today :=
      fun e he => hle e (hperm.mem_iff.mp he)
    have hm0' : ∃ e ∈ sortByDateDesc entries, e.date = today := by
      obtain ⟨w, hw, hwd⟩ := hm0
      exact ⟨w, hperm.mem_iff.mpr hw, hwd⟩
    obtain ⟨t1, he1, hs1, hnd1, hle1, hmem1⟩ :=
      streakFrom_step today (sortByDateDesc entries) hsorted hnd0 hle0 hm0' (by omega)
    have hm1' : ∃ e ∈ t1, e.date = today - 1 := by
      obtain ⟨w, hw, hwd⟩ := hm1
      exact ⟨w, (hmem1 w).mpr ⟨hperm.mem_iff.mpr hw, by omega⟩, hwd⟩
    obtain ⟨t2, he2, hs2, hnd2, hle2, hmem2⟩ :=
      streakFrom_step (today - 1) t1 hs1 hnd1 hle1 hm1' (by omega)
    have hm2' : ∃ e ∈ t2, e.date = today - 2 := by
      obtain ⟨w, hw, hwd⟩ := hm2
      refine ⟨w, (hmem2 w).mpr ⟨(hmem1 w).mpr ⟨hperm.mem_iff.mpr hw, by omega⟩, by omega⟩, hwd⟩
    have h12 : today - 1 - 1 = today - 2 := by omega
    rw [h12] at he2
    obtain ⟨t3, he3, hs3, hnd3, hle3, hmem3⟩ :=
      streakFrom_step (today - 2) t2 hs2 hnd2 hle2 hm2' (by omega)
    have h23 : today - 2 - 1 = today - 3 := by omega
    rw [h23] at he3
    have hz : streakFrom ((today - 3 : Nat) : Int) t3 = 0 := by
      apply streakFrom_eq_zero
      intro e he
      have he2' : e ∈ t2 := ((hmem3 e).mp he).1
      have he1' : e ∈ t1 := ((hmem2 e).mp he2').1
      have he0' : e ∈ sortByDateDesc entries := ((hmem1 e).mp he1').1
      exact hno3 e (hperm.mem_iff.mp he0')
    unfold currentStreak
    rw [he1, he2, he3, hz]
  · intro hnone
    unfold currentStreak
    exact streakFrom_eq_zero today _ (fun e he => hnone e (hperm.mem_iff.mp he))

/-- Witness for C4 at concrete entry sets with today = 10: dates
{10, 9, 8, 5} give streak 3; dates {9} (no entry for today) give streak 0. -/
theorem currentStreak_spec_witness :
    currentStreak 10 [⟨1, "u1", 8, Mood.happy, none, 0, 0⟩, ⟨2, "u1", 10, Mood.sad, none, 0, 0⟩,
      ⟨3, "u1", 9, Mood.angry, none, 0, 0⟩, ⟨4, "u1", 5, Mood.happy, none, 0, 0⟩] = 3
    ∧ currentStreak 10 [⟨1, "u1", 9, Mood.happy, none, 0, 0⟩] = 0 :=
  ⟨(currentStreak_spec 10 [⟨1, "u1", 8, Mood.happy, none, 0, 0⟩,
      ⟨2, "u1", 10, Mood.sad, none, 0, 0⟩, ⟨3, "u1", 9, Mood.angry, none, 0, 0⟩,
      ⟨4, "u1", 5, Mood.happy, none, 0, 0⟩]).1 (by decide),
    (currentStreak_spec 10 [⟨1, "u1", 9, Mood.happy, none, 0, 0⟩]).2 (by decide)⟩

/-- Display label of a mood (the `label` fields of `MOOD_OPTIONS` in
MoodHistory.tsx); the lookup always succeeds since `Mood` is the closed
five-value enum. -/
def moodLabel : Mood → String
  | Mood.happy => "Happy"
  | Mood.sad => "Sad"
  | Mood.angry => "Angry"
  | Mood.excited => "Excited"
  | Mood.neutral => "Neutral"

/-- `String.prototype.toLowerCase`, modelled characterwise. -/
def lowerChars (s : String) : List Char := s.data.map Char.toLower

/-- `text.toLowerCase().includes(term.toLowerCase())`: the lowercased term is
a contiguous substring of the lowercased text. -/
def containsCI (text term : String) : Prop := lowerChars term <:+: lowerChars text

instance (text term : String) : Decidable (containsCI text term) := by
  unfold containsCI
  infer_instance

/-- `filteredEntries` of MoodHistory.tsx: keep an entry when the search term
case-insensitively occurs in the mood's display label, in the note coerced to
the empty string when absent (`entry.note || ''`), or in the locale-formatted
date string (`toLocaleDateString`, an environment-dependent formatter passed
here as `fmt`). -/
def filteredEntries (fmt : Nat → String) (term : String) (entries : List MoodEntry) :
    List MoodEntry :=
  entries.filter (fun e =>
    decide (containsCI (moodLabel e.mood) term)
      || decide (containsCI (e.note.getD "") term)
      || decide (containsCI (fmt e.date) term))

/-- C8. The filter keeps an entry iff the term is a case-insensitive
substring of the mood's display label, of the (present) note text, or of the
formatted date string; when the note is absent the note clause only fires for
the empty term, and the empty term already matches the label, so the
iff-characterization never counts an absent note as a note-text match. -/
theorem filteredEntries_spec (fmt : Nat → String) (term : String)
    (entries : List MoodEntry) :
    ∀ e, e ∈ filteredEntries fmt term entries ↔
      e ∈ entries ∧
        (containsCI (moodLabel e.mood) term
          ∨ (∃ t, e.note = some t ∧ containsCI t term)
          ∨ containsCI (fmt e.date) term) := by
  intro e
  unfold filteredEntries
  rw [List.mem_filter]
  simp only [Bool.or_eq_true, decide_eq_true_eq]
  constructor
  · rintro ⟨he, (h1 | h2) | h3⟩
    · exact ⟨he, Or.inl h1⟩
    · cases hn : e.note with
      | some t =>
          rw [hn] at h2
          exact ⟨he, Or.inr (Or.inl ⟨t, rfl, h2⟩)⟩
      | none =>
          rw [hn] at h2
          have hterm : lowerChars term = [] := by
            have h2' : lowerChars term <:+: lowerChars "" := h2
            simpa [lowerChars] using h2'
          refine ⟨he, Or.inl ?_⟩
          unfold containsCI
          rw [hterm]
          exact List.nil_infix
    · exact ⟨he, Or.inr (Or.inr h3)⟩
  · rintro ⟨he, h1 | ⟨t, hnt, h2⟩ | h3⟩
    · exact ⟨he, Or.inl (Or.inl h1)⟩
    · refine ⟨he, Or.inl (Or.inr ?_)⟩
      rw [hnt]
      exact h2
    · exact ⟨he, Or.inr h3⟩

/-- Witness for C8: with term "app", the Happy entry with no note is kept
(label match), and its absent note is not what matched. -/
theorem filteredEntries_spec_witness :
    ⟨1, "u1", 40, Mood.happy, none, 0, 0⟩
      ∈ filteredEntries (fun _ => "1/1/2024") "app"
        [⟨1, "u1", 40, Mood.happy, none, 0, 0⟩] :=
  (filteredEntries_spec (fun _ => "1/1/2024") "app"
    [⟨1, "u1", 40, Mood.happy, none, 0, 0⟩] ⟨1, "u1", 40, Mood.happy, none, 0, 0⟩).mpr
    ⟨by decide, Or.inl (by decide)⟩

/-- The fixed `moodScores` table (Happy 5, Excited 4, Neutral 3, Sad 2,
Angry 1); the code's `|| 3` default for unknown moods is unreachable because
`Mood` is the closed enumeration the schema enforces. -/
def moodScore : Mood → Nat
  | Mood.happy => 5
  | Mood.excited => 4
  | Mood.neutral => 3
  | Mood.sad => 2
  | Mood.angry => 1

/-- `getAverageMoodScore` of MoodStats.tsx in exact rational arithmetic:
0 for an empty list, otherwise the mean of the entries' mood scores. -/
def getAverageMoodScore (entriesArray : List MoodEntry) : ℚ :=
  if entriesArray.length = 0 then 0
  else (entriesArray.map (fun e => (moodScore e.mood : ℚ))).sum / entriesArray.length

/-- `thisWeekEntries`: entries whose date (at midnight, in ms) is at least
`now - 7 days`; the cutoff keeps the current time-of-day. -/
def thisWeekEntries (now : Nat) (entries : List MoodEntry) : List MoodEntry :=
  entries.filter (fun e =>
    decide ((now : Int) - 7 * msPerDay ≤ ((e.date * msPerDay : Nat) : Int)))

/-- `previousWeekEntries`: dates between `now - 14 days` (inclusive) and
`now - 7 days` (exclusive). -/
def previousWeekEntries (now : Nat) (entries : List MoodEntry) : List MoodEntry :=
  entries.filter (fun e =>
    decide ((now : Int) - 14 * msPerDay ≤ ((e.date * msPerDay : Nat) : Int))
      && decide (((e.date * msPerDay : Nat) : Int) < (now : Int) - 7 * msPerDay))

inductive Trend where
  | up
  | down
  | stable
deriving DecidableEq, Repr

/-- `trendDirection` of MoodStats.tsx. -/
def trendDirection (now : Nat) (entries : List MoodEntry) : Trend :=
  if getAverageMoodScore (previousWeekEntries now entries)
      < getAverageMoodScore (thisWeekEntries now entries) then .up
  else if getAverageMoodScore (thisWeekEntries now entries)
      < getAverageMoodScore (previousWeekEntries now entries) then .down
  else .stable

/-- Every mood's score lies in 1..5. -/
theorem moodScore_bounds (m : Mood) : 1 ≤ moodScore m ∧ moodScore m ≤ 5 := by
  cases m <;> simp [moodScore]

/-- C10. The average mood score of a non-empty entry list lies in [1, 5]; an
empty list averages 0; hence a non-empty this-week partition against an empty
previous-week partition always yields trend "up". -/
theorem getAverageMoodScore_spec (now : Nat) (entries l : List MoodEntry) :
    (l = [] → getAverageMoodScore l = 0)
    ∧ (l ≠ [] → 1 ≤ getAverageMoodScore l ∧ getAverageMoodScore l ≤ 5)
    ∧ (thisWeekEntries now entries ≠ [] → previousWeekEntries now entries = [] →
        trendDirection now entries = .up) := by
  have hbounds : ∀ l' : List MoodEntry, l' ≠ [] →
      1 ≤ getAverageMoodScore l' ∧ getAverageMoodScore l' ≤ 5 := by
    intro l' hne
    have hlen : 0 < l'.length := List.length_pos.mpr hne
    have hlenQ : (0 : ℚ) < (l'.length : ℚ) := by exact_mod_cast hlen
    have hsum : (l'.length : ℚ) ≤ (l'.map (fun e => (moodScore e.mood : ℚ))).sum
        ∧ (l'.map (fun e => (moodScore e.mood : ℚ))).sum ≤ 5 * l'.length := by
      clear hne hlen hlenQ
      induction l' with
      | nil => simp
      | cons e rest ih =>
        have h1 := (moodScore_bounds e.mood).1
        have h2 := (moodScore_bounds e.mood).2
        have h1' : (1 : ℚ) ≤ (moodScore e.mood : ℚ) := by exact_mod_cast h1
        have h2' : (moodScore e.mood : ℚ) ≤ 5 := by exact_mod_cast h2
        simp only [List.map_cons, List.sum_cons, List.length_cons]
        push_cast
        constructor
        · linarith [ih.1]
        · linarith [ih.2]
    unfold getAverageMoodScore
    rw [if_neg (by omega)]
    constructor
    · rw [le_div_iff₀ hlenQ]
      linarith [hsum.1]
    · rw [div_le_iff₀ hlenQ]
      linarith [hsum.2]
  refine ⟨?_, hbounds l, ?_⟩
  · intro h
    simp [getAverageMoodScore, h]
  · intro hthis hprev
    have hz : getAverageMoodScore (previousWeekEntries now entries) = 0 := by
      simp [getAverageMoodScore, hprev]
    have hpos := (hbounds (thisWeekEntries now entries) hthis).1
    unfold trendDirection
    rw [if_pos (by rw [hz]; linarith)]

/-- Witness for C10: two entries dated today and yesterday (day 100, noon),
none in the previous week: the averages and the trend behave as stated. -/
theorem getAverageMoodScore_spec_witness :
    getAverageMoodScore [] = 0
    ∧ 1 ≤ getAverageMoodScore [⟨1, "u1", 100, Mood.angry, none, 0, 0⟩]
    ∧ trendDirection (100 * msPerDay + 43200000)
        [⟨1, "u1", 100, Mood.angry, none, 0, 0⟩, ⟨2, "u1", 99, Mood.happy, none, 0, 0⟩]
        = .up := by
  have hne : thisWeekEntries (100 * msPerDay + 43200000)
      [⟨1, "u1", 100, Mood.angry, none, 0, 0⟩, ⟨2, "u1", 99, Mood.happy, none, 0, 0⟩]
        ≠ [] := by decide
  have hprev : previousWeekEntries (100 * msPerDay + 43200000)
      [⟨1, "u1", 100, Mood.angry, none, 0, 0⟩, ⟨2, "u1", 99, Mood.happy, none, 0, 0⟩]
        = [] := by decide
  exact ⟨(getAverageMoodScore_spec 0 [] []).1 rfl,
    ((getAverageMoodScore_spec 0 [] [⟨1, "u1", 100, Mood.angry, none, 0, 0⟩]).2.1
      (by decide)).1,
    (getAverageMoodScore_spec (100 * msPerDay + 43200000)
      [⟨1, "u1", 100, Mood.angry, none, 0, 0⟩, ⟨2, "u1", 99, Mood.happy, none, 0, 0⟩]
      []).2.2 hne hprev⟩

/-- `noteOrNull` never produces the empty string. -/
theorem noteOrNull_ne_empty (n : Option String) : noteOrNull n ≠ some "" := by
  cases n with
  | none => simp [noteOrNull]
  | some s =>
    unfold noteOrNull
    split
    · simp
    · next h => simp [h]

/-- C9. `createMoodEntry` coerces falsy notes to null on both the fresh-insert
and the overwrite path: an input note that is absent or the empty string is
stored and returned as null, the returned note is never the empty string, and
a store whose rows never carry an empty-string note keeps that property. -/
theorem createMoodEntry_note_coercion (now : Nat) (input : CreateMoodEntryInput) (s : Store) :
    ∀ r s', createMoodEntry now input s = .ok (r, s') →
      ((input.note = some "" ∨ input.note = none) → r.note = none)
      ∧ r.note ≠ some ""
      ∧ ((∀ x ∈ s.rows, x.note ≠ some "") → ∀ x ∈ s'.rows, x.note ≠ some "") := by
  intro r s' hok
  unfold createMoodEntry at hok
  split at hok
  · simp at hok
  · split at hok <;> simp only [Except.ok.injEq, Prod.mk.injEq] at hok
    · next e hfind =>
      obtain ⟨hr, hs⟩ := hok
      refine ⟨?_, ?_, ?_⟩
      · rintro (h | h) <;> rw [← hr] <;> simp [noteOrNull, h]
      · rw [← hr]
        exact noteOrNull_ne_empty input.note
      · intro hall x hx
        rw [← hs] at hx
        simp only [Store.rows, List.mem_map] at hx
        obtain ⟨y, hy, hxy⟩ := hx
        by_cases hc : y.id = e.id
        · rw [← hxy]
          rw [if_pos (by simp [hc])]
          exact noteOrNull_ne_empty input.note
        · rw [← hxy]
          rw [if_neg (by simpa using hc)]
          exact hall y hy
    · obtain ⟨hr, hs⟩ := hok
      refine ⟨?_, ?_, ?_⟩
      · rintro (h | h) <;> rw [← hr] <;> simp [noteOrNull, h]
      · rw [← hr]
        exact noteOrNull_ne_empty input.note
      · intro hall x hx
        rw [← hs] at hx
        simp only [Store.rows, List.mem_append, List.mem_singleton] at hx
        rcases hx with hx | hx
        · exact hall x hx
        · rw [hx]
          exact noteOrNull_ne_empty input.note

/-- Witness for C9: creating with note `""` on an empty store stores and
returns a null note. -/
theorem createMoodEntry_note_coercion_witness :
    ∃ r s', createMoodEntry (100 * msPerDay) ⟨"u1", 99, Mood.happy, some ""⟩ ⟨[], 1⟩
        = .ok (r, s') ∧ r.note = none := by
  have hok : createMoodEntry (100 * msPerDay) ⟨"u1", 99, Mood.happy, some ""⟩ ⟨[], 1⟩
      = .ok (⟨1, "u1", 99, Mood.happy, none, 100 * msPerDay, 100 * msPerDay⟩,
          ⟨[⟨1, "u1", 99, Mood.happy, none, 100 * msPerDay, 100 * msPerDay⟩], 2⟩) := by rfl
  exact ⟨_, _, hok,
    (createMoodEntry_note_coercion (100 * msPerDay) ⟨"u1", 99, Mood.happy, some ""⟩ ⟨[], 1⟩
      _ _ hok).1 (Or.inl rfl)⟩

/-- The rows a store holds for a `(user_id, date)` pair. -/
def pairRows (s : Store) (u : String) (d : Nat) : List MoodEntry :=
  s.rows.filter (matchesPair u d)

/-- Well-formedness of the persisted table: serial ids are unique and stay
below the id counter (the serial primary key), and at most one row exists per
`(user_id, date)` pair (the application-enforced uniqueness rule). -/
structure StoreInv (s : Store) : Prop where
  nodupIds : (s.rows.map MoodEntry.id).Nodup
  idsLt : ∀ r ∈ s.rows, r.id < s.nextId
  onePerDay : s.rows.Pairwise (fun a b => ¬(a.user_id = b.user_id ∧ a.date = b.date))

/-- A `find?` on a list whose `filter` is a singleton returns that element. -/
theorem find?_of_filter_eq_singleton {p : MoodEntry → Bool} :
    ∀ {l : List MoodEntry} {a : MoodEntry}, l.filter p = [a] → l.find? p = some a := by
  intro l
  induction l with
  | nil => intro a h; simp at h
  | cons x xs ih =>
    intro a h
    by_cases hx : p x = true
    · rw [List.filter_cons_of_pos hx] at h
      obtain ⟨h1, h2⟩ := List.cons_eq_cons.mp h
      rw [List.find?_cons_of_pos _ hx, h1]
    · rw [List.filter_cons_of_neg (by simpa using hx)] at h
      rw [List.find?_cons_of_neg _ (by simpa using hx)]
      exact ih h

/-- With duplicate-free ids, two rows sharing an id are the same row. -/
theorem eq_of_mem_of_id_eq {l : List MoodEntry}
    (hnd : (l.map MoodEntry.id).Nodup) {x y : MoodEntry}
    (hx : x ∈ l) (hy : y ∈ l) (hxy : x.id = y.id) : x = y :=
  List.inj_on_of_nodup_map hnd hx hy hxy

/-- Replacing, by id, the unique `p`-matching row of a table with a new
`p`-matching row of the same id leaves exactly that row matching. -/
theorem filter_map_update {p : MoodEntry → Bool} {e' : MoodEntry} :
    ∀ {l : List MoodEntry} {r : MoodEntry},
      l.filter p = [r] → (l.map MoodEntry.id).Nodup → p e' = true → e'.id = r.id →
      (l.map (fun x => if x.id == r.id then e' else x)).filter p = [e'] := by
  intro l
  induction l with
  | nil => intro r h; simp at h
  | cons x xs ih =>
    intro r hfil hnd hpe' hide'
    have hnd' : x.id ∉ xs.map MoodEntry.id ∧ (xs.map MoodEntry.id).Nodup := by
      rw [List.map_cons, List.nodup_cons] at hnd
      exact hnd
    by_cases hpx : p x = true
    · rw [List.filter_cons_of_pos hpx] at hfil
      obtain ⟨hxr, hxs⟩ := List.cons_eq_cons.mp hfil
      have hmapxs : ∀ y ∈ xs.map (fun z => if z.id == r.id then e' else z), p y ≠ true := by
        intro y hy
        rw [List.mem_map] at hy
        obtain ⟨z, hz, hzy⟩ := hy
        have hzid : z.id ≠ r.id := by
          intro hzr
          exact hnd'.1 (by
            rw [List.mem_map]
            exact ⟨z, hz, by rw [hzr, ← hxr]⟩)
        rw [← hzy, if_neg (by simpa using hzid)]
        have := List.filter_eq_nil_iff.mp hxs z hz
        simpa using this
      rw [List.map_cons, if_pos (by simp [hxr])]
      rw [List.filter_cons_of_pos hpe']
      have : (xs.map (fun z => if z.id == r.id then e' else z)).filter p = [] := by
        rw [List.filter_eq_nil_iff]
        exact hmapxs
      rw [this]
    · rw [List.filter_cons_of_neg (by simpa using hpx)] at hfil
      have hrxs : r ∈ xs := List.mem_of_mem_filter (by rw [hfil]; exact List.mem_singleton_self r)
      have hxid : x.id ≠ r.id := by
        intro hxr
        exact hnd'.1 (by
          rw [List.mem_map]
          exact ⟨r, hrxs, hxr.symm⟩)
      rw [List.map_cons, if_neg (by simpa using hxid)]
      rw [List.filter_cons_of_neg (by simpa using hpx)]
      exact ih hfil hnd'.2 hpe' hide'

/-- A well-formed store holds zero or one row for any `(user_id, date)`. -/
theorem pairRows_cases (u : String) (d : Nat) (s : Store) (hinv : StoreInv s) :
    pairRows s u d = [] ∨ ∃ r, pairRows s u d = [r] := by
  cases hfil : pairRows s u d with
  | nil => exact Or.inl rfl
  | cons x tail =>
    cases tail with
    | nil => exact Or.inr ⟨x, rfl⟩
    | cons y tail2 =>
      exfalso
      have hsub : (x :: y :: tail2).Sublist s.rows := by
        rw [← hfil]
        exact List.filter_sublist s.rows
      have hpw := hinv.onePerDay.sublist hsub
      have hrel := (List.pairwise_cons.mp hpw).1 y (List.mem_cons_self y tail2)
      have hx : matchesPair u d x = true := by
        have hm : x ∈ pairRows s u d := by rw [hfil]; exact List.mem_cons_self x (y :: tail2)
        exact (List.mem_filter.mp hm).2
      have hy : matchesPair u d y = true := by
        have hm : y ∈ pairRows s u d := by
          rw [hfil]
          exact List.mem_cons_of_mem x (List.mem_cons_self y tail2)
        exact (List.mem_filter.mp hm).2
      unfold matchesPair at hx hy
      simp only [Bool.and_eq_true, beq_iff_eq] at hx hy
      exact hrel ⟨hx.1.trans hy.1.symm, hx.2.trans hy.2.symm⟩

/-- Upsert step on a store whose unique `(u, d)` row is `r`: the call
overwrites mood, note and `updated_at` in place, preserves id, `created_at`
and everything else, keeps exactly one `(u, d)` row, and preserves
well-formedness and the id counter. -/
theorem createMoodEntry_step (t : Nat) (u : String) (d : Nat) (m : Mood) (n : Option String)
    (s : Store) (r : MoodEntry) (hinv : StoreInv s) (hpair : pairRows s u d = [r])
    (hval : d ≤ dayOf t) :
    ∃ s1, createMoodEntry t ⟨u, d, m, n⟩ s
        = .ok ({ r with mood := m, note := noteOrNull n, updated_at := t }, s1)
      ∧ pairRows s1 u d = [{ r with mood := m, note := noteOrNull n, updated_at := t }]
      ∧ StoreInv s1 ∧ s1.nextId = s.nextId := by
  have hfind : s.rows.find? (matchesPair u d) = some r := find?_of_filter_eq_singleton hpair
  have hrmem : r ∈ s.rows :=
    List.mem_of_mem_filter (p := matchesPair u d) (by
      show r ∈ pairRows s u d
      rw [hpair]
      exact List.mem_singleton_self r)
  have hrmatch : matchesPair u d r = true := by
    have hm : r ∈ pairRows s u d := by rw [hpair]; exact List.mem_singleton_self r
    exact (List.mem_filter.mp hm).2
  have he'match : matchesPair u d { r with mood := m, note := noteOrNull n, updated_at := t }
      = true := by
    unfold matchesPair at hrmatch ⊢
    simpa using hrmatch
  have hnoval : ¬ (dayOf t * msPerDay + (msPerDay - 1) < d * msPerDay) := by
    simp only [msPerDay]
    omega
  have hfx : ∀ x ∈ s.rows,
      ((fun x => if x.id == r.id then
          { r with mood := m, note := noteOrNull n, updated_at := t } else x) x).user_id
        = x.user_id
      ∧ ((fun x => if x.id == r.id then
          { r with mood := m, note := noteOrNull n, updated_at := t } else x) x).date
        = x.date := by
    intro x hx
    by_cases hc : x.id = r.id
    · have hxr : x = r := eq_of_mem_of_id_eq hinv.nodupIds hx hrmem hc
      simp [hc, hxr]
    · simp [hc]
  have hok : createMoodEntry t ⟨u, d, m, n⟩ s
      = .ok ({ r with mood := m, note := noteOrNull n, updated_at := t },
          ⟨s.rows.map (fun x => if x.id == r.id then
              { r with mood := m, note := noteOrNull n, updated_at := t } else x),
            s.nextId⟩) := by
    unfold createMoodEntry
    rw [if_neg hnoval, hfind]
  refine ⟨_, hok, ?_, ⟨?_, ?_, ?_⟩, rfl⟩
  · unfold pairRows
    exact filter_map_update hpair hinv.nodupIds he'match rfl
  · have hmapid : (s.rows.map (fun x => if x.id == r.id then
        { r with mood := m, note := noteOrNull n, updated_at := t } else x)).map MoodEntry.id
        = s.rows.map MoodEntry.id := by
      rw [List.map_map]
      apply List.map_congr_left
      intro x _
      by_cases hc : x.id = r.id
      · simp [Function.comp, hc]
      · simp [Function.comp, hc]
    show ((s.rows.map _).map MoodEntry.id).Nodup
    rw [hmapid]
    exact hinv.nodupIds
  · intro x hx
    simp only [List.mem_map] at hx
    obtain ⟨y, hy, hxy⟩ := hx
    by_cases hc : y.id = r.id
    · rw [← hxy, if_pos (by simpa using hc)]
      exact hinv.idsLt r hrmem
    · rw [← hxy, if_neg (by simpa using hc)]
      exact hinv.idsLt y hy
  · show (s.rows.map _).Pairwise _
    rw [List.pairwise_map]
    apply List.Pairwise.imp_of_mem ?_ hinv.onePerDay
    intro a b ha hb hab habs
    exact hab ⟨((hfx a ha).1).symm.trans (habs.1.trans (hfx b hb).1),
      ((hfx a ha).2).symm.trans (habs.2.trans (hfx b hb).2)⟩

/-- Fresh-insert branch: with no `(u, d)` row present, the call appends a row
with the next serial id and `created_at = updated_at = now`, which becomes
the unique `(u, d)` row, and well-formedness is preserved. -/
theorem createMoodEntry_fresh (t : Nat) (u : String) (d : Nat) (m : Mood) (n : Option String)
    (s : Store) (hinv : StoreInv s) (hpair : pairRows s u d = [])
    (hval : d ≤ dayOf t) :
    ∃ s1, createMoodEntry t ⟨u, d, m, n⟩ s
        = .ok (⟨s.nextId, u, d, m, noteOrNull n, t, t⟩, s1)
      ∧ pairRows s1 u d = [⟨s.nextId, u, d, m, noteOrNull n, t, t⟩]
      ∧ StoreInv s1 := by
  have hpair' : s.rows.filter (matchesPair u d) = [] := hpair
  have hnone : s.rows.find? (matchesPair u d) = none := by
    rw [List.find?_eq_none]
    intro x hx
    have hm := List.filter_eq_nil_iff.mp hpair' x hx
    simpa using hm
  have hnoval : ¬ (dayOf t * msPerDay + (msPerDay - 1) < d * msPerDay) := by
    simp only [msPerDay]
    omega
  have hok : createMoodEntry t ⟨u, d, m, n⟩ s
      = .ok (⟨s.nextId, u, d, m, noteOrNull n, t, t⟩,
          ⟨s.rows ++ [⟨s.nextId, u, d, m, noteOrNull n, t, t⟩], s.nextId + 1⟩) := by
    unfold createMoodEntry
    rw [if_neg hnoval, hnone]
  refine ⟨_, hok, ?_, ⟨?_, ?_, ?_⟩⟩
  · show (s.rows ++ [_]).filter (matchesPair u d) = _
    rw [List.filter_append, hpair']
    simp [matchesPair]
  · show ((s.rows ++ [_]).map MoodEntry.id).Nodup
    rw [List.map_append, List.nodup_append]
    refine ⟨hinv.nodupIds, by simp, ?_⟩
    intro a ha hb
    simp only [List.map_cons, List.map_nil, List.mem_singleton] at hb
    rw [List.mem_map] at ha
    obtain ⟨y, hy, hya⟩ := ha
    have := hinv.idsLt y hy
    omega
  · intro x hx
    show x.id < s.nextId + 1
    rcases List.mem_append.mp hx with hx | hx
    · have := hinv.idsLt x hx
      omega
    · rw [List.mem_singleton] at hx
      rw [hx]
      show s.nextId < s.nextId + 1
      omega
  · show (s.rows ++ [_]).Pairwise _
    rw [List.pairwise_append]
    refine ⟨hinv.onePerDay, by simp, ?_⟩
    intro a ha b hb
    rw [List.mem_singleton] at hb
    have hm := List.filter_eq_nil_iff.mp hpair' a ha
    rw [hb]
    intro habs
    apply hm
    unfold matchesPair
    simp only [Bool.and_eq_true, beq_iff_eq]
    exact ⟨habs.1, habs.2⟩

/-- The first call of an upsert sequence: whatever the store held for
`(u, d)`, afterwards exactly one row exists for the pair — the returned row —
carrying the call's mood and coerced note, and well-formedness holds. -/
theorem createMoodEntry_first (t : Nat) (u : String) (d : Nat) (m : Mood) (n : Option String)
    (s : Store) (hinv : StoreInv s) (hval : d ≤ dayOf t) :
    ∃ r0 s1, createMoodEntry t ⟨u, d, m, n⟩ s = .ok (r0, s1)
      ∧ pairRows s1 u d = [r0] ∧ StoreInv s1
      ∧ r0.user_id = u ∧ r0.date = d ∧ r0.mood = m ∧ r0.note = noteOrNull n
      ∧ r0.updated_at = t := by
  rcases pairRows_cases u d s hinv with hemp | ⟨r, hone⟩
  · obtain ⟨s1, hok, hpair1, hinv1⟩ := createMoodEntry_fresh t u d m n s hinv hemp hval
    exact ⟨_, s1, hok, hpair1, hinv1, rfl, rfl, rfl, rfl, rfl⟩
  · obtain ⟨s1, hok, hpair1, hinv1, -⟩ := createMoodEntry_step t u d m n s r hinv hone hval
    have hrmatch : matchesPair u d r = true := by
      have hm : r ∈ pairRows s u d := by rw [hone]; exact List.mem_singleton_self r
      exact (List.mem_filter.mp hm).2
    unfold matchesPair at hrmatch
    simp only [Bool.and_eq_true, beq_iff_eq] at hrmatch
    exact ⟨_, s1, hok, hpair1, hinv1, hrmatch.1, hrmatch.2, rfl, rfl, rfl⟩

/-- A sequence of `createMoodEntry` calls for one `(user_id, date)` pair,
each given as `(now, mood, note)`, collecting the returned rows. -/
def runCreates (u : String) (d : Nat) :
    List (Nat × Mood × Option String) → Store → Except StoreError (List MoodEntry × Store)
  | [], s => .ok ([], s)
  | c :: cs, s =>
      match createMoodEntry c.1 ⟨u, d, c.2.1, c.2.2⟩ s with
      | .error e => .error e
      | .ok (r, s1) =>
          match runCreates u d cs s1 with
          | .error e => .error e
          | .ok (rs, s2) => .ok (r :: rs, s2)

/-- Running further valid upserts on a store whose unique `(u, d)` row is `r`
keeps exactly one row for the pair; every intermediate result keeps `r`'s id
and `created_at`, and the final row carries the last call's mood, coerced
note and timestamp. -/
theorem runCreates_singleton (u : String) (d : Nat) :
    ∀ (calls : List (Nat × Mood × Option String)) (s : Store) (r : MoodEntry),
      StoreInv s → pairRows s u d = [r] → (∀ c ∈ calls, d ≤ dayOf c.1) →
      ∃ rs s' rN, runCreates u d calls s = .ok (rs, s')
        ∧ pairRows s' u d = [rN] ∧ StoreInv s'
        ∧ rN.id = r.id ∧ rN.created_at = r.created_at
        ∧ rN.user_id = r.user_id ∧ rN.date = r.date
        ∧ (calls = [] → rN = r ∧ rs = [])
        ∧ (∀ c, calls.getLast? = some c →
            rN.mood = c.2.1 ∧ rN.note = noteOrNull c.2.2 ∧ rN.updated_at = c.1)
        ∧ (calls ≠ [] → rs.getLast? = some rN) := by
  intro calls
  induction calls with
  | nil =>
    intro s r hinv hpair hval
    exact ⟨[], s, r, rfl, hpair, hinv, rfl, rfl, rfl, rfl,
      fun _ => ⟨rfl, rfl⟩, fun c hc => by simp at hc, fun h => absurd rfl h⟩
  | cons c cs ih =>
    intro s r hinv hpair hval
    obtain ⟨s1, hok1, hpair1, hinv1, -⟩ :=
      createMoodEntry_step c.1 u d c.2.1 c.2.2 s r hinv hpair
        (hval c (List.mem_cons_self c cs))
    obtain ⟨rs, s', rN, hrun, hpairN, hinvN, hid, hca, hu, hd2, hnil, hlastc, hlast⟩ :=
      ih s1 { r with mood := c.2.1, note := noteOrNull c.2.2, updated_at := c.1 } hinv1 hpair1
        (fun c' hc' => hval c' (List.mem_cons_of_mem c hc'))
    refine ⟨{ r with mood := c.2.1, note := noteOrNull c.2.2, updated_at := c.1 } :: rs,
      s', rN, ?_, hpairN, hinvN, hid, hca, hu, hd2, ?_, ?_, ?_⟩
    · show runCreates u d (c :: cs) s = _
      unfold runCreates
      rw [hok1]
      simp only [hrun]
    · intro h
      simp at h
    · intro c' hc'
      cases cs with
      | nil =>
        simp only [List.getLast?_singleton, Option.some.injEq] at hc'
        obtain ⟨hrNr, -⟩ := hnil rfl
        rw [hrNr, ← hc']
        exact ⟨rfl, rfl, rfl⟩
      | cons c2 cs2 =>
        rw [List.getLast?_cons_cons] at hc'
        exact hlastc c' hc'
    · intro _
      cases hcs : cs with
      | nil =>
        obtain ⟨hrNr, hrs⟩ := hnil hcs
        rw [hrs, hrNr]
        simp
      | cons c2 cs2 =>
        have hrsne : rs.getLast? = some rN := hlast (by rw [hcs]; simp)
        cases rs with
        | nil => simp at hrsne
        | cons r2 rs2 =>
          rw [List.getLast?_cons_cons]
          exact hrsne

/-- C1. Valid upserts repeated for one `(user_id, date)` pair on a
well-formed store leave exactly one row for the pair: its id and
`created_at` equal the first call's returned row's, its mood and (coerced)
note equal the last call's input, and `getMoodEntryByDate` returns exactly
that row. -/
theorem createMoodEntry_upsert (u : String) (d : Nat)
    (c0 : Nat × Mood × Option String) (rest : List (Nat × Mood × Option String))
    (s : Store) (hinv : StoreInv s)
    (hval : ∀ c ∈ c0 :: rest, d ≤ dayOf c.1) :
    ∃ rs s' r0 rN, runCreates u d (c0 :: rest) s = .ok (rs, s')
      ∧ rs.head? = some r0 ∧ rs.getLast? = some rN
      ∧ pairRows s' u d = [rN]
      ∧ getMoodEntryByDate u d s' = some rN
      ∧ rN.id = r0.id ∧ rN.created_at = r0.created_at
      ∧ rN.user_id = u ∧ rN.date = d
      ∧ (∀ c, (c0 :: rest).getLast? = some c →
          rN.mood = c.2.1 ∧ rN.note = noteOrNull c.2.2) := by
  obtain ⟨r0, s1, hok1, hpair1, hinv1, hu0, hd0, hm0, hn0, ht0⟩ :=
    createMoodEntry_first c0.1 u d c0.2.1 c0.2.2 s hinv
      (hval c0 (List.mem_cons_self c0 rest))
  obtain ⟨rs, s', rN, hrun, hpairN, hinvN, hid, hca, hu, hd2, hnil, hlastc, hlast⟩ :=
    runCreates_singleton u d rest s1 r0 hinv1 hpair1
      (fun c' hc' => hval c' (List.mem_cons_of_mem c0 hc'))
  refine ⟨r0 :: rs, s', r0, rN, ?_, rfl, ?_, hpairN, ?_, hid, hca,
    hu.trans hu0, hd2.trans hd0, ?_⟩
  · show runCreates u d (c0 :: rest) s = _
    unfold runCreates
    rw [hok1]
    simp only [hrun]
  · cases hrest : rest with
    | nil =>
      obtain ⟨hrNr, hrs⟩ := hnil hrest
      rw [hrs, hrNr]
      simp
    | cons c2 cs2 =>
      have hrsne : rs.getLast? = some rN := hlast (by rw [hrest]; simp)
      cases rs with
      | nil => simp at hrsne
      | cons r2 rs2 =>
        rw [List.getLast?_cons_cons]
        exact hrsne
  · unfold getMoodEntryByDate
    exact find?_of_filter_eq_singleton hpairN
  · intro c hc
    cases hrest : rest with
    | nil =>
      rw [hrest] at hc
      simp only [List.getLast?_singleton, Option.some.injEq] at hc
      obtain ⟨hrNr, -⟩ := hnil hrest
      rw [hrNr, ← hc]
      exact ⟨hm0, hn0⟩
    | cons c2 cs2 =>
      rw [hrest] at hc
      rw [List.getLast?_cons_cons] at hc
      have := hlastc c (by rw [hrest]; exact hc)
      exact ⟨this.1, this.2.1⟩

/-- Witness for C1: the spec's end-to-end scenario, with 'u1' on day 19737
(2024-01-15): create Happy/'ok' then Angry/null on an empty store; the read
by date returns the final row with mood Angry, note null, and the first
call's id. -/
theorem createMoodEntry_upsert_witness :
    ∃ rs s' r0 rN, runCreates "u1" 19737
        [(19737 * msPerDay + 1000, Mood.happy, some "ok"),
          (19737 * msPerDay + 2000, Mood.angry, none)] ⟨[], 1⟩ = .ok (rs, s')
      ∧ rs.head? = some r0 ∧ rs.getLast? = some rN
      ∧ getMoodEntryByDate "u1" 19737 s' = some rN
      ∧ rN.mood = Mood.angry ∧ rN.note = none ∧ rN.id = r0.id := by
  obtain ⟨rs, s', r0, rN, hrun, hhead, hlastr, hpair, hbydate, hid, hca, hu, hd, hlastc⟩ :=
    createMoodEntry_upsert "u1" 19737 (19737 * msPerDay + 1000, Mood.happy, some "ok")
      [(19737 * msPerDay + 2000, Mood.angry, none)] ⟨[], 1⟩
      ⟨by simp, by simp, by simp⟩ (by decide)
  obtain ⟨hm, hn⟩ := hlastc (19737 * msPerDay + 2000, Mood.angry, none) (by simp)
  exact ⟨rs, s', r0, rN, hrun, hhead, hlastr, hbydate, hm, hn, hid⟩
